import Mathlib

/-!
# ASCII art converter (`src/main.cpp`): glyph mapping, sequential and threaded rendering

A shallow embedding of `class ASCIIConverter`.

* A `std::string` is a list of bytes (`List UInt8`); `length()` and `operator[]` work on bytes.
* A single-channel `cv::Mat` is its `rows`, its `cols` and the `uchar` stored at `(y, x)`.
* `size_t` arithmetic is taken modulo `2 ^ 64`, the conversion to `int` modulo `2 ^ 32`.
* Undefined behaviour (integer division by zero, signed `int` overflow, reading a string past
  its terminator) is a `Fault`; every function that can run into it returns `Except Fault _`.
* `double` arithmetic is IEEE-754 binary64 with round-to-nearest-even, on values `m * 2 ^ e`;
  the exponent is not bounded, which is exact for every magnitude in the normal range and so
  for everything computed from 32-bit integers.
-/

namespace ASCIIConverter

/-! ## Data model -/

/-- What keeps a call from returning a value: undefined behaviour (an integer division by zero,
a string read past its terminator, a `double` converted to an `int` that cannot hold it, an
`int` product or sum that overflows) or the `runtime_error` thrown for an image that could not
be loaded. -/
inductive Fault where
  | divisionByZero
  | outOfRange
  | intConversion
  | intOverflow
  | couldNotLoad
  deriving DecidableEq, Repr

deriving instance DecidableEq for Except

/-- The bytes of a string literal in a UTF-8 encoded source file. -/
def bytesOf (s : String) : List UInt8 :=
  s.data.flatMap String.utf8EncodeChar

/-- `const string SIMPLE_CHARS`. -/
def SIMPLE_CHARS : List UInt8 := bytesOf " .:-=+*#%@"

/-- `const string DETAILED_CHARS`; apostrophe, backtick and braces are written as `\x` escapes. -/
def DETAILED_CHARS : List UInt8 :=
  bytesOf " .\x27\x60^\",:;Il!i><~+_-?][\x7d\x7b1)(|\\/tfjrxnuvczXYUJCLQ0OZmwqpdbkhao*#MW&8%B@$"

/-- `const string BLOCKS_CHARS`. -/
def BLOCKS_CHARS : List UInt8 := bytesOf " ░▒▓█"

/-- The constructor's `switch (charset)`: `ascii_chars` starts as the empty string and is
assigned in the three `case` labels only; `charset` is the integer value of the enum object
(`main` casts `atoi(argv[3])` to it). -/
def asciiCharsOf (charset : Int) : List UInt8 :=
  if charset = 0 then SIMPLE_CHARS
  else if charset = 1 then DETAILED_CHARS
  else if charset = 2 then BLOCKS_CHARS
  else []

/-- A single-channel 8-bit `cv::Mat`: `data y x` is `image.at<uchar>(y, x)`. -/
structure Mat where
  rows : Nat
  cols : Nat
  data : Nat → Nat → UInt8

/-! ## Glyph mapper -/

/-- Conversion of an unsigned value to `int`. -/
def toInt32 (n : Nat) : Int :=
  if n % 2 ^ 32 < 2 ^ 31 then ((n % 2 ^ 32 : Nat) : Int) else ((n % 2 ^ 32 : Nat) : Int) - 2 ^ 32

/-- The expression `(pixel * (ascii_chars.length() - 1)) / 255` assigned to `int char_index`:
the subtraction and the product are `size_t` operations. -/
def charIndex (pixel : Nat) (len : Nat) : Int :=
  toInt32 ((pixel * ((len + 2 ^ 64 - 1) % 2 ^ 64)) % 2 ^ 64 / 255)

/-- The expression `ascii_chars[char_index]`: the index is converted to `size_t`; position
`size()` holds the terminator, any later position is out of range. -/
def stringAt (s : List UInt8) (i : Int) : Except Fault UInt8 :=
  let pos := (i % 2 ^ 64).toNat
  if h : pos < s.length then .ok (s.get ⟨pos, h⟩)
  else if pos = s.length then .ok 0
  else .error .outOfRange

/-- One iteration of the inner loop body: the glyph appended for `pixel`. -/
def mapPixel (ascii_chars : List UInt8) (pixel : UInt8) : Except Fault UInt8 :=
  stringAt ascii_chars (charIndex pixel.toNat ascii_chars.length)

/-! ## Renderers -/

/-- The body of the `for y` loop: the `for x` loop over the columns of row `y`, then the
newline, all appended to `acc`. -/
def rowLoop (ascii_chars : List UInt8) (image : Mat) (acc : List UInt8) (y : Nat) :
    Except Fault (List UInt8) := do
  let line ← (List.range image.cols).foldlM
    (fun (s : List UInt8) (x : Nat) => do
      let c ← mapPixel ascii_chars (image.data y x)
      pure (s ++ [c])) acc
  pure (line ++ [10])

/-- The `int` expression `n * (image.cols + 1)` passed to `reserve`, with `n` the number of rows
to render: the sum and the product must each fit `int`. -/
def reserveArg (n cols : Nat) : Except Fault Nat :=
  if cols + 1 < 2 ^ 31 ∧ n * (cols + 1) < 2 ^ 31 then .ok (n * (cols + 1))
  else .error .intOverflow

/-- The loop `for (int y = start_row; y < end_row; y++)` starting from an empty string. -/
def rowsLoop (ascii_chars : List UInt8) (image : Mat) (start_row end_row : Nat) :
    Except Fault (List UInt8) :=
  (List.range' start_row (end_row - start_row)).foldlM (rowLoop ascii_chars image) []

/-- `ASCIIConverter::convertSequential`: `result.reserve(image.rows * (image.cols + 1))`, which
only pre-sizes the storage, then the two loops. -/
def convertSequential (ascii_chars : List UInt8) (image : Mat) : Except Fault (List UInt8) := do
  let _ ← reserveArg image.rows image.cols
  rowsLoop ascii_chars image 0 image.rows

/-- The pair `(start_row, end_row)` computed for thread `t`. -/
def chunkBounds (rows num_threads t : Nat) : Nat × Nat :=
  let rows_per_thread := rows / num_threads
  (t * rows_per_thread, if t = num_threads - 1 then rows else (t + 1) * rows_per_thread)

/-- The body of the task given to `async`:
`chunk.reserve((end_row - start_row) * (image.cols + 1))`, then the two loops over the chunk.
No chunk has `end_row < start_row`, so the difference is taken in the natural numbers. -/
def renderChunk (ascii_chars : List UInt8) (image : Mat) (start_row end_row : Nat) :
    Except Fault (List UInt8) := do
  let _ ← reserveArg (end_row - start_row) image.cols
  rowsLoop ascii_chars image start_row end_row

/-- The vector `futures`: task `t` renders its own chunk from an empty string. -/
def launchAll (num_threads : Nat) (ascii_chars : List UInt8) (image : Mat) :
    List (Except Fault (List UInt8)) :=
  (List.range num_threads).map fun t =>
    renderChunk ascii_chars image (chunkBounds image.rows num_threads t).1
      (chunkBounds image.rows num_threads t).2

/-- The loop `for (auto& future : futures) result += future.get();`. -/
def joinAll (acc : List UInt8) (futures : List (Except Fault (List UInt8))) :
    Except Fault (List UInt8) :=
  futures.foldlM (fun result future => do
    let chunk ← future
    pure (result ++ chunk)) acc

/-- `ASCIIConverter::convertWithThreading`; `num_threads` is the value
`thread::hardware_concurrency()` returned. -/
def convertWithThreading (num_threads : Nat) (ascii_chars : List UInt8) (image : Mat) :
    Except Fault (List UInt8) :=
  if num_threads = 0 then .error .divisionByZero
  else joinAll [] (launchAll num_threads ascii_chars image)

/-! ## Output height (`convertImage`) -/

/-- Number of binary digits of `n`. -/
def bitLength (n : Nat) : Nat := go n n
where
  go : Nat → Nat → Nat
    | 0, _ => 0
    | fuel + 1, k => if k = 0 then 0 else go fuel (k / 2) + 1

/-- A finite `double`: the value `m * 2 ^ e`. -/
structure Dbl where
  m : Int
  e : Int
  deriving DecidableEq, Repr

/-- The rational number a `double` stands for. -/
def Dbl.toRat (x : Dbl) : ℚ := x.m * (2 : ℚ) ^ x.e

/-- The integer nearest to `n / d`, a tie going to the even one. -/
def roundHalfEven (n d : Nat) : Nat :=
  if 2 * (n % d) < d then n / d
  else if d < 2 * (n % d) then n / d + 1
  else if n / d % 2 = 0 then n / d else n / d + 1

/-- The binary exponent of `n / d` for positive `n` and `d`: the `e` with
`2 ^ e ≤ n / d < 2 ^ (e + 1)`. -/
def exponentOf (n d : Nat) : Int :=
  let e0 : Int := (bitLength n : Int) - (bitLength d : Int)
  if d * 2 ^ e0.toNat ≤ n * 2 ^ (-e0).toNat then e0 else e0 - 1

/-- Rounding of `n / d` to 53 significant bits, round-to-nearest-even. -/
def roundPos (n d : Nat) : Dbl :=
  if n = 0 then ⟨0, 0⟩
  else
    let sh := exponentOf n d - 52
    ⟨roundHalfEven (n * 2 ^ (-sh).toNat) (d * 2 ^ sh.toNat), sh⟩

/-- Rounding of `n / d * 2 ^ e` for a signed `n`. -/
def roundSigned (n : Int) (d : Nat) (e : Int) : Dbl :=
  ⟨n.sign * (roundPos n.natAbs d).m, (roundPos n.natAbs d).e + e⟩

/-- Conversion of an integer to `double`. -/
def Dbl.ofInt (i : Int) : Dbl := roundSigned i 1 0

/-- The `double` quotient `x / y` for `y ≠ 0`. -/
def Dbl.div (x y : Dbl) : Dbl := roundSigned (x.m * y.m.sign) y.m.natAbs (x.e - y.e)

/-- The `double` product `x * y`. -/
def Dbl.mul (x y : Dbl) : Dbl := roundSigned (x.m * y.m) 1 (x.e + y.e)

/-- The literal `0.5`. -/
def Dbl.half : Dbl := ⟨1, -1⟩

/-- The integer part of a `double`, the fraction dropped (toward zero). -/
def truncValue (x : Dbl) : Int :=
  if 0 ≤ x.e then x.m * 2 ^ x.e.toNat else x.m.tdiv (2 ^ (-x.e).toNat)

/-- The conversion `static_cast<int>(x)`: undefined when the integer part does not fit `int`. -/
def truncToInt (x : Dbl) : Except Fault Int :=
  if -2 ^ 31 ≤ truncValue x ∧ truncValue x < 2 ^ 31 then .ok (truncValue x)
  else .error .intConversion

/-- The `double` expression `output_width * aspect_ratio * 0.5` with
`aspect_ratio = static_cast<double>(image.rows) / image.cols`. -/
def heightValue (output_width : Int) (rows cols : Nat) : Dbl :=
  let aspect_ratio := Dbl.div (Dbl.ofInt rows) (Dbl.ofInt cols)
  Dbl.mul (Dbl.mul (Dbl.ofInt output_width) aspect_ratio) Dbl.half

/-- The value `convertImage` gives `output_height` for an image of `rows` by `cols` pixels;
an empty image makes it throw before. -/
def outputHeight (preserve_aspect_ratio : Bool) (output_width : Int) (rows cols : Nat) :
    Except Fault Int :=
  if rows = 0 ∨ cols = 0 then .error .couldNotLoad
  else if preserve_aspect_ratio then truncToInt (heightValue output_width rows cols)
  else .ok (output_width.tdiv 2)

/-! ## Definitions that follow the specification's wording -/

/-- The specification's output height: `round(target_width * aspect_ratio * 0.5)` with
`aspect_ratio = rows / cols`, rounded to the nearest integer. -/
def specOutputHeight (target_width : Int) (rows cols : Nat) : Int :=
  round ((target_width : ℚ) * ((rows : ℚ) / (cols : ℚ)) * (1 / 2))

/-! ## Auxiliary definitions for the proofs -/

/-- The rows thread `t` is given. -/
def chunkRows (rows num_threads t : Nat) : List Nat :=
  List.range' (chunkBounds rows num_threads t).1
    ((chunkBounds rows num_threads t).2 - (chunkBounds rows num_threads t).1)

/-! # Theorems -/

set_option maxRecDepth 100000

/-! ## Glyph mapper: index arithmetic -/

/-- For a palette whose last index fits `int`, no wrap-around happens in `charIndex`. -/
theorem charIndex_eq (s len : Nat) (hs : s ≤ 255) (hpos : 0 < len) (hlen : len ≤ 2 ^ 31) :
    charIndex s len = ((s * (len - 1) / 255 : Nat) : Int) := by
  have h1 : (len + 2 ^ 64 - 1) % 2 ^ 64 = len - 1 := by omega
  have h2 : s * (len - 1) ≤ 255 * (len - 1) := Nat.mul_le_mul_right _ hs
  have h3 : s * (len - 1) % 2 ^ 64 = s * (len - 1) := Nat.mod_eq_of_lt (by omega)
  have h4 : s * (len - 1) / 255 ≤ len - 1 :=
    Nat.div_le_of_le_mul (by omega)
  have h5 : s * (len - 1) / 255 % 2 ^ 32 = s * (len - 1) / 255 := Nat.mod_eq_of_lt (by omega)
  unfold charIndex toInt32
  rw [h1, h3, h5, if_pos (by omega)]

/-- The quotient is at most the last index. -/
theorem quot_le_last (s len : Nat) (hs : s ≤ 255) : s * (len - 1) / 255 ≤ len - 1 :=
  Nat.div_le_of_le_mul (by
    have := Nat.mul_le_mul_right (len - 1) hs
    omega)

/-- With an in-range index, `stringAt` is the list lookup. -/
theorem stringAt_natCast (p : List UInt8) (i : Nat) (h : i < p.length)
    (hlen : p.length ≤ 2 ^ 31) : stringAt p (i : Int) = .ok (p.get ⟨i, h⟩) := by
  have hi : ((i : Int) % 2 ^ 64).toNat = i := by omega
  unfold stringAt
  simp only [hi, h, dite_true]

/-- The mapper on a non-empty palette: the glyph at the quantised index. -/
theorem mapPixel_eq (p : List UInt8) (px : UInt8) (hpos : 0 < p.length)
    (hlen : p.length ≤ 2 ^ 31) :
    mapPixel p px = .ok (p.get ⟨px.toNat * (p.length - 1) / 255, by
      have h255 : px.toNat ≤ 255 := Nat.le_of_lt_succ px.val.isLt
      have := quot_le_last px.toNat p.length h255
      omega⟩) := by
  have h255 : px.toNat ≤ 255 := Nat.le_of_lt_succ px.val.isLt
  unfold mapPixel
  rw [charIndex_eq _ _ h255 hpos hlen]
  exact stringAt_natCast p _ _ hlen

/-! ## Loops that append pieces to a string -/

/-- The chunks of the threads before the last one are consecutive blocks of `q` rows. -/
theorem blocks_flatMap (q j : Nat) :
    (List.range j).flatMap (fun t => List.range' (t * q) q) = List.range' 0 (j * q) := by
  induction j with
  | zero => simp
  | succ j ih =>
    rw [List.range_succ, List.flatMap_append, ih]
    simp only [List.flatMap_cons, List.flatMap_nil, List.append_nil]
    have h := List.range'_append 0 (j * q) q 1
    simp only [Nat.one_mul, Nat.zero_add] at h
    rw [h]
    congr 1
    rw [Nat.succ_mul, Nat.add_comm]

/-- Appending the rows of all chunks in thread order lists every row once, in order. -/
theorem chunkRows_flatMap (rows k : Nat) (hk : 1 ≤ k) :
    (List.range k).flatMap (chunkRows rows k) = List.range rows := by
  obtain ⟨j, rfl⟩ : ∃ j, k = j + 1 := ⟨k - 1, by omega⟩
  have hle : j * (rows / (j + 1)) ≤ rows := by
    have h1 : j * (rows / (j + 1)) ≤ (j + 1) * (rows / (j + 1)) :=
      Nat.mul_le_mul_right _ (Nat.le_succ j)
    have h2 := Nat.mul_div_le rows (j + 1)
    omega
  rw [List.range_succ, List.flatMap_append]
  have hfront : (List.range j).flatMap (chunkRows rows (j + 1)) =
      (List.range j).flatMap (fun t => List.range' (t * (rows / (j + 1))) (rows / (j + 1))) := by
    apply List.flatMap_congr
    intro t ht
    have htj : t ≠ j := by
      have := List.mem_range.mp ht
      omega
    simp only [chunkRows, chunkBounds, Nat.add_sub_cancel, htj, if_false]
    congr 1
    rw [Nat.succ_mul, Nat.add_sub_cancel_left]
  rw [hfront, blocks_flatMap]
  simp only [List.flatMap_cons, List.flatMap_nil, List.append_nil, chunkRows, chunkBounds,
    Nat.add_sub_cancel, if_true]
  have h := List.range'_append 0 (j * (rows / (j + 1))) (rows - j * (rows / (j + 1))) 1
  simp only [Nat.one_mul, Nat.zero_add] at h
  rw [h, List.range_eq_range']
  congr 1
  omega

/-- The chunk of an earlier thread ends where or before a later thread's chunk starts. -/
theorem chunk_end_le_start (rows k t₁ t₂ : Nat) (h12 : t₁ < t₂) (h2 : t₂ < k) :
    (chunkBounds rows k t₁).2 ≤ (chunkBounds rows k t₂).1 := by
  have hne : t₁ ≠ k - 1 := by omega
  simp only [chunkBounds, hne, if_false]
  exact Nat.mul_le_mul_right _ h12

/-- Beyond the bound the sequential pre-size argument overflows `int`: at 150 rows of 21474836
columns the product is 3221225550, whatever the palette and the samples. -/
theorem convertSequential_overflow (p : List UInt8) (data : Nat → Nat → UInt8) :
    convertSequential p ⟨150, 21474836, data⟩ = .error .intOverflow := by
  have h : reserveArg 150 21474836 = .error .intOverflow := by decide
  unfold convertSequential
  rw [h]
  rfl

/-- The rows before the last chunk fit into the image. -/
theorem last_start_le (rows k : Nat) : (k - 1) * (rows / k) ≤ rows := by
  have h1 : (k - 1) * (rows / k) ≤ k * (rows / k) := Nat.mul_le_mul_right _ (Nat.sub_le k 1)
  have h2 := Nat.mul_div_le rows k
  omega

/-! ## The renderers return the specified text -/

/-- The digit count found with enough fuel brackets the number between two powers of two. -/
theorem bitLength_go_spec (fuel k : Nat) (h : k ≤ fuel) :
    k < 2 ^ bitLength.go fuel k ∧ (0 < k → 2 ^ (bitLength.go fuel k - 1) ≤ k) := by
  induction fuel generalizing k with
  | zero =>
    have : k = 0 := by omega
    subst this
    simp [bitLength.go]
  | succ f ih =>
    by_cases hk : k = 0
    · subst hk
      simp [bitLength.go]
    · have hhalf : k / 2 ≤ f := by omega
      obtain ⟨h1, h2⟩ := ih (k / 2) hhalf
      simp only [bitLength.go, hk, if_false, Nat.add_sub_cancel]
      constructor
      · rw [Nat.pow_succ]
        omega
      · intro _
        by_cases hk1 : k / 2 = 0
        · have hgo : bitLength.go f (k / 2) = 0 := by
            rw [hk1]
            cases f <;> simp [bitLength.go]
          rw [hgo]
          simp
          omega
        · have h3 := h2 (by omega)
          have hpos : 0 < bitLength.go f (k / 2) := by
            by_contra h0
            have : bitLength.go f (k / 2) = 0 := by omega
            rw [this] at h1
            simp at h1
            omega
          obtain ⟨b, hb⟩ : ∃ b, bitLength.go f (k / 2) = b + 1 := ⟨_, (Nat.succ_pred_eq_of_pos hpos).symm⟩
          rw [hb] at h3 ⊢
          simp only [Nat.add_sub_cancel] at h3
          rw [Nat.pow_succ]
          omega

/-- A positive `n` has `bitLength n` binary digits. -/
theorem bitLength_spec (n : Nat) (hn : 0 < n) :
    2 ^ (bitLength n - 1) ≤ n ∧ n < 2 ^ bitLength n :=
  ⟨(bitLength_go_spec n n le_rfl).2 hn, (bitLength_go_spec n n le_rfl).1⟩

/-- A power of two with an integer exponent, as a quotient of two natural powers. -/
theorem two_zpow_eq (z : Int) :
    (2 : ℚ) ^ z = ((2 ^ z.toNat : Nat) : ℚ) / ((2 ^ (-z).toNat : Nat) : ℚ) := by
  by_cases hz : 0 ≤ z
  · obtain ⟨k, rfl⟩ := Int.eq_ofNat_of_zero_le hz
    have h0 : (-(k : Int)).toNat = 0 := by omega
    simp [h0, zpow_natCast]
  · obtain ⟨k, rfl⟩ : ∃ k : Nat, z = -(k : Int) := ⟨(-z).toNat, by omega⟩
    have h0 : (-(k : Int)).toNat = 0 := by omega
    simp [h0, zpow_natCast]

/-- The quotient the significand is rounded from: `n / d` scaled by `2 ^ (-sh)`. -/
theorem scaled_quot (n d : Nat) (sh : Int) :
    ((n * 2 ^ (-sh).toNat : Nat) : ℚ) / ((d * 2 ^ sh.toNat : Nat) : ℚ) =
      (n : ℚ) / (d : ℚ) / (2 : ℚ) ^ sh := by
  rw [two_zpow_eq sh]
  have h1 : ((2 ^ sh.toNat : Nat) : ℚ) ≠ 0 := by positivity
  have h2 : ((2 ^ (-sh).toNat : Nat) : ℚ) ≠ 0 := by positivity
  by_cases hd : (d : ℚ) = 0
  · simp [hd]
  · push_cast
    field_simp

/-- The exponent `exponentOf` returns brackets the quotient between two powers of two. -/
theorem exponentOf_spec (n d : Nat) (hn : 0 < n) (hd : 0 < d) :
    (2 : ℚ) ^ exponentOf n d ≤ (n : ℚ) / (d : ℚ) ∧
      (n : ℚ) / (d : ℚ) < (2 : ℚ) ^ (exponentOf n d + 1) := by
  obtain ⟨hn1, hn2⟩ := bitLength_spec n hn
  obtain ⟨hd1, hd2⟩ := bitLength_spec d hd
  have hdq : (0 : ℚ) < (d : ℚ) := by exact_mod_cast hd
  have hnq : (0 : ℚ) < (n : ℚ) := by exact_mod_cast hn
  have ha : 0 < bitLength n := by
    by_contra h0
    have : bitLength n = 0 := by omega
    rw [this] at hn2
    simp at hn2
    omega
  have hb : 0 < bitLength d := by
    by_contra h0
    have : bitLength d = 0 := by omega
    rw [this] at hd2
    simp at hd2
    omega
  -- the bounds on `n` and `d` as rational powers of two
  have hn1q : (2 : ℚ) ^ ((bitLength n : Int) - 1) ≤ (n : ℚ) := by
    have : ((bitLength n : Int) - 1) = ((bitLength n - 1 : Nat) : Int) := by omega
    rw [this, zpow_natCast]
    exact_mod_cast hn1
  have hn2q : (n : ℚ) < (2 : ℚ) ^ (bitLength n : Int) := by
    rw [zpow_natCast]
    exact_mod_cast hn2
  have hd1q : (2 : ℚ) ^ ((bitLength d : Int) - 1) ≤ (d : ℚ) := by
    have : ((bitLength d : Int) - 1) = ((bitLength d - 1 : Nat) : Int) := by omega
    rw [this, zpow_natCast]
    exact_mod_cast hd1
  have hd2q : (d : ℚ) < (2 : ℚ) ^ (bitLength d : Int) := by
    rw [zpow_natCast]
    exact_mod_cast hd2
  have h2 : (2 : ℚ) ≠ 0 := by norm_num
  set e0 : Int := (bitLength n : Int) - (bitLength d : Int) with he0
  -- the test of `exponentOf`, read in `ℚ`
  have htest : (d * 2 ^ e0.toNat ≤ n * 2 ^ (-e0).toNat) ↔ (2 : ℚ) ^ e0 ≤ (n : ℚ) / (d : ℚ) := by
    rw [two_zpow_eq e0, div_le_div_iff₀ (by positivity) hdq]
    constructor
    · intro h
      have : ((d * 2 ^ e0.toNat : Nat) : ℚ) ≤ ((n * 2 ^ (-e0).toNat : Nat) : ℚ) := by
        exact_mod_cast h
      push_cast at this ⊢
      linarith
    · intro h
      have : ((d * 2 ^ e0.toNat : Nat) : ℚ) ≤ ((n * 2 ^ (-e0).toNat : Nat) : ℚ) := by
        push_cast at h ⊢
        linarith
      exact_mod_cast this
  have hup : (n : ℚ) / (d : ℚ) < (2 : ℚ) ^ (e0 + 1) := by
    rw [div_lt_iff₀ hdq]
    have : (2 : ℚ) ^ (e0 + 1) = (2 : ℚ) ^ (bitLength n : Int) / (2 : ℚ) ^ ((bitLength d : Int) - 1) := by
      rw [← zpow_sub₀ h2]
      congr 1
      omega
    rw [this, div_mul_eq_mul_div, lt_div_iff₀ (by positivity)]
    calc (n : ℚ) * (2 : ℚ) ^ ((bitLength d : Int) - 1)
        ≤ (n : ℚ) * (d : ℚ) := by gcongr
      _ < (2 : ℚ) ^ (bitLength n : Int) * (d : ℚ) := by gcongr
  have hlow : (2 : ℚ) ^ (e0 - 1) ≤ (n : ℚ) / (d : ℚ) := by
    rw [le_div_iff₀ hdq]
    have : (2 : ℚ) ^ (e0 - 1) = (2 : ℚ) ^ ((bitLength n : Int) - 1) / (2 : ℚ) ^ (bitLength d : Int) := by
      rw [← zpow_sub₀ h2]
      congr 1
      omega
    rw [this, div_mul_eq_mul_div, div_le_iff₀ (by positivity)]
    calc (2 : ℚ) ^ ((bitLength n : Int) - 1) * (d : ℚ)
        ≤ (n : ℚ) * (d : ℚ) := by gcongr
      _ ≤ (n : ℚ) * (2 : ℚ) ^ (bitLength d : Int) := by gcongr
  unfold exponentOf
  simp only [← he0]
  by_cases ht : d * 2 ^ e0.toNat ≤ n * 2 ^ (-e0).toNat
  · rw [if_pos ht]
    exact ⟨htest.mp ht, hup⟩
  · rw [if_neg ht]
    refine ⟨hlow, ?_⟩
    have := mt htest.mpr ht
    rw [Int.sub_add_cancel]
    exact not_le.mp this

/-- The rounded quotient is within one half of the exact one. -/
theorem roundHalfEven_spec (n d : Nat) (hd : 0 < d) :
    |(roundHalfEven n d : ℚ) - (n : ℚ) / (d : ℚ)| ≤ 1 / 2 := by
  have hdq : (0 : ℚ) < (d : ℚ) := by exact_mod_cast hd
  have hdiv : (n : ℚ) = (d : ℚ) * ((n / d : Nat) : ℚ) + ((n % d : Nat) : ℚ) := by
    exact_mod_cast (Nat.div_add_mod n d).symm
  have hquot : (n : ℚ) / (d : ℚ) = ((n / d : Nat) : ℚ) + ((n % d : Nat) : ℚ) / (d : ℚ) := by
    rw [div_eq_iff (ne_of_gt hdq), add_mul, div_mul_cancel₀ _ (ne_of_gt hdq)]
    linarith
  have hlt : ((n % d : Nat) : ℚ) < (d : ℚ) := by exact_mod_cast Nat.mod_lt n hd
  have hnn : (0 : ℚ) ≤ ((n % d : Nat) : ℚ) := Nat.cast_nonneg _
  have hfr1 : ((n % d : Nat) : ℚ) / (d : ℚ) < 1 := (div_lt_one hdq).mpr hlt
  have hfr0 : 0 ≤ ((n % d : Nat) : ℚ) / (d : ℚ) := div_nonneg hnn (le_of_lt hdq)
  rw [hquot, abs_le]
  unfold roundHalfEven
  split_ifs with h1 h2 h3
  · have h : 2 * ((n % d : Nat) : ℚ) < (d : ℚ) := by exact_mod_cast h1
    have : ((n % d : Nat) : ℚ) / (d : ℚ) < 1 / 2 := by
      rw [div_lt_iff₀ hdq]
      linarith
    constructor <;> linarith
  · have h : (d : ℚ) < 2 * ((n % d : Nat) : ℚ) := by exact_mod_cast h2
    have : 1 / 2 < ((n % d : Nat) : ℚ) / (d : ℚ) := by
      rw [lt_div_iff₀ hdq]
      linarith
    push_cast
    constructor <;> linarith
  · have h : 2 * (n % d) = d := by omega
    have hq : 2 * ((n % d : Nat) : ℚ) = (d : ℚ) := by exact_mod_cast h
    have : ((n % d : Nat) : ℚ) / (d : ℚ) = 1 / 2 := by
      rw [div_eq_iff (ne_of_gt hdq)]
      linarith
    constructor <;> linarith
  · have h : 2 * (n % d) = d := by omega
    have hq : 2 * ((n % d : Nat) : ℚ) = (d : ℚ) := by exact_mod_cast h
    have : ((n % d : Nat) : ℚ) / (d : ℚ) = 1 / 2 := by
      rw [div_eq_iff (ne_of_gt hdq)]
      linarith
    push_cast
    constructor <;> linarith

/-- Rounding a positive quotient gives a significand of 53 bits and a value within half a unit
in the last place of the quotient. -/
theorem roundPos_spec (n d : Nat) (hn : 0 < n) (hd : 0 < d) :
    (2 : Int) ^ 52 ≤ (roundPos n d).m ∧ (roundPos n d).m ≤ (2 : Int) ^ 53 ∧
      |(roundPos n d).toRat - (n : ℚ) / (d : ℚ)| ≤ (2 : ℚ) ^ (roundPos n d).e / 2 := by
  obtain ⟨he1, he2⟩ := exponentOf_spec n d hn hd
  have hn0 : n ≠ 0 := by omega
  have h2 : (2 : ℚ) ≠ 0 := by norm_num
  set sh : Int := exponentOf n d - 52 with hsh
  have hshpos : (0 : ℚ) < (2 : ℚ) ^ sh := by positivity
  have hD : 0 < d * 2 ^ sh.toNat := Nat.mul_pos hd (by positivity)
  have hround := roundHalfEven_spec (n * 2 ^ (-sh).toNat) (d * 2 ^ sh.toNat) hD
  rw [scaled_quot] at hround
  have hm : (roundPos n d).m = (roundHalfEven (n * 2 ^ (-sh).toNat) (d * 2 ^ sh.toNat) : Int) := by
    simp only [roundPos, hn0, if_false, ← hsh]
  have hexp : (roundPos n d).e = sh := by
    simp only [roundPos, hn0, if_false, ← hsh]
  -- the scaled quotient lies in `[2 ^ 52, 2 ^ 53)`
  have hlo : (2 : ℚ) ^ (52 : Nat) ≤ (n : ℚ) / (d : ℚ) / (2 : ℚ) ^ sh := by
    rw [le_div_iff₀ hshpos, ← zpow_natCast, ← zpow_add₀ h2]
    have : ((52 : Nat) : Int) + sh = exponentOf n d := by omega
    rw [this]
    exact he1
  have hhi : (n : ℚ) / (d : ℚ) / (2 : ℚ) ^ sh < (2 : ℚ) ^ (53 : Nat) := by
    rw [div_lt_iff₀ hshpos, ← zpow_natCast, ← zpow_add₀ h2]
    have : ((53 : Nat) : Int) + sh = exponentOf n d + 1 := by omega
    rw [this]
    exact he2
  obtain ⟨hr1, hr2⟩ := abs_le.mp hround
  set m : Nat := roundHalfEven (n * 2 ^ (-sh).toNat) (d * 2 ^ sh.toNat) with hmdef
  refine ⟨?_, ?_, ?_⟩
  · rw [hm]
    have : ((2 ^ 52 : Nat) : ℚ) - 1 < (m : ℚ) := by
      push_cast
      linarith
    have h' : 2 ^ 52 - 1 < m := by
      have h'' : (((2 ^ 52 - 1 : Nat)) : ℚ) < (m : ℚ) := by
        rw [Nat.cast_sub (by norm_num)]
        simpa using this
      exact_mod_cast h''
    have : 2 ^ 52 ≤ m := by omega
    exact_mod_cast this
  · rw [hm]
    have : (m : ℚ) < ((2 ^ 53 + 1 : Nat) : ℚ) := by
      push_cast
      linarith
    have h' : m < 2 ^ 53 + 1 := by exact_mod_cast this
    have : m ≤ 2 ^ 53 := by omega
    exact_mod_cast this
  · have hval : (roundPos n d).toRat = (m : ℚ) * (2 : ℚ) ^ sh := by
      unfold Dbl.toRat
      rw [hm, hexp]
      push_cast
      rfl
    have hq : (n : ℚ) / (d : ℚ) = (n : ℚ) / (d : ℚ) / (2 : ℚ) ^ sh * (2 : ℚ) ^ sh := by
      rw [div_mul_cancel₀ _ (ne_of_gt hshpos)]
    rw [hval, hexp, hq, ← sub_mul, abs_mul, abs_of_pos hshpos]
    have := mul_le_mul_of_nonneg_right hround (le_of_lt hshpos)
    linarith

/-- Rounding a signed quotient scaled by a power of two: the result is within half a unit in
the last place of the exact value. -/
theorem roundSigned_spec (n : Int) (d : Nat) (e : Int) (hd : 0 < d) :
    |(roundSigned n d e).toRat - (n : ℚ) / (d : ℚ) * (2 : ℚ) ^ e| ≤
      (2 : ℚ) ^ (roundSigned n d e).e / 2 := by
  have h2 : (2 : ℚ) ≠ 0 := by norm_num
  have hepos : (0 : ℚ) < (2 : ℚ) ^ e := by positivity
  by_cases hn : n = 0
  · subst hn
    have : (roundSigned 0 d e).toRat = 0 := by simp [roundSigned, Dbl.toRat]
    rw [this]
    simp only [Int.cast_zero, zero_div, zero_mul, sub_zero, abs_zero]
    positivity
  · have hpos : 0 < n.natAbs := Int.natAbs_pos.mpr hn
    obtain ⟨-, -, hr⟩ := roundPos_spec n.natAbs d hpos hd
    have hsign : |((n.sign : Int) : ℚ)| = 1 := by
      rcases lt_or_gt_of_ne hn with h | h
      · rw [Int.sign_eq_neg_one_of_neg h]
        norm_num
      · rw [Int.sign_eq_one_of_pos h]
        norm_num
    have hn_eq : (n : ℚ) = ((n.sign : Int) : ℚ) * ((n.natAbs : Nat) : ℚ) := by
      have h' : ((n.sign * (n.natAbs : Int) : Int) : ℚ) = (n : ℚ) := by
        rw [Int.sign_mul_natAbs]
      rw [Int.cast_mul, Int.cast_natCast] at h'
      exact h'.symm
    have hval : (roundSigned n d e).toRat =
        ((n.sign : Int) : ℚ) * (roundPos n.natAbs d).toRat * (2 : ℚ) ^ e := by
      simp only [roundSigned, Dbl.toRat, zpow_add₀ h2]
      push_cast
      ring
    have hexp : (roundSigned n d e).e = (roundPos n.natAbs d).e + e := rfl
    have hdiff : (roundSigned n d e).toRat - (n : ℚ) / (d : ℚ) * (2 : ℚ) ^ e =
        ((n.sign : Int) : ℚ) *
          ((roundPos n.natAbs d).toRat - ((n.natAbs : Nat) : ℚ) / (d : ℚ)) * (2 : ℚ) ^ e := by
      rw [hval, hn_eq]
      ring
    rw [hdiff, abs_mul, abs_mul, hsign, one_mul, abs_of_pos hepos, hexp, zpow_add₀ h2]
    have := mul_le_mul_of_nonneg_right hr (le_of_lt hepos)
    linarith

/-- The `double` product is within half a unit in the last place of the exact product. -/
theorem dbl_mul_spec (x y : Dbl) :
    |(Dbl.mul x y).toRat - x.toRat * y.toRat| ≤ (2 : ℚ) ^ (Dbl.mul x y).e / 2 := by
  have h2 : (2 : ℚ) ≠ 0 := by norm_num
  have h := roundSigned_spec (x.m * y.m) 1 (x.e + y.e) (by decide)
  have hprod : x.toRat * y.toRat =
      ((x.m * y.m : Int) : ℚ) / ((1 : Nat) : ℚ) * (2 : ℚ) ^ (x.e + y.e) := by
    simp only [Dbl.toRat, zpow_add₀ h2]
    push_cast
    ring
  rw [hprod]
  exact h

/-- The `double` quotient by a non-zero value is within half a unit in the last place of the
exact quotient. -/
theorem dbl_div_spec (x y : Dbl) (hy : y.m ≠ 0) :
    |(Dbl.div x y).toRat - x.toRat / y.toRat| ≤ (2 : ℚ) ^ (Dbl.div x y).e / 2 := by
  have h2 : (2 : ℚ) ≠ 0 := by norm_num
  have hpos : 0 < y.m.natAbs := Int.natAbs_pos.mpr hy
  have h := roundSigned_spec (x.m * y.m.sign) y.m.natAbs (x.e - y.e) hpos
  have hy_eq : (y.m : ℚ) = ((y.m.sign : Int) : ℚ) * ((y.m.natAbs : Nat) : ℚ) := by
    have h' : ((y.m.sign * (y.m.natAbs : Int) : Int) : ℚ) = (y.m : ℚ) := by
      rw [Int.sign_mul_natAbs]
    rw [Int.cast_mul, Int.cast_natCast] at h'
    exact h'.symm
  have hsq : ((y.m.sign : Int) : ℚ) * ((y.m.sign : Int) : ℚ) = 1 := by
    rcases lt_or_gt_of_ne hy with h' | h'
    · rw [Int.sign_eq_neg_one_of_neg h']
      norm_num
    · rw [Int.sign_eq_one_of_pos h']
      norm_num
  have hs0 : ((y.m.sign : Int) : ℚ) ≠ 0 := by
    intro h0
    rw [h0] at hsq
    norm_num at hsq
  have ha0 : ((y.m.natAbs : Nat) : ℚ) ≠ 0 := by exact_mod_cast (ne_of_gt hpos)
  have hquot : x.toRat / y.toRat =
      ((x.m * y.m.sign : Int) : ℚ) / ((y.m.natAbs : Nat) : ℚ) * (2 : ℚ) ^ (x.e - y.e) := by
    simp only [Dbl.toRat, zpow_sub₀ h2]
    rw [hy_eq]
    push_cast
    have hp : (2 : ℚ) ^ y.e ≠ 0 := by positivity
    field_simp
    linear_combination (-(x.m : ℚ) * (2 : ℚ) ^ x.e * ((y.m.natAbs : Nat) : ℚ) * (2 : ℚ) ^ y.e) * hsq
  rw [hquot]
  exact h

/-- A natural number below `2 ^ 53` is a `double`: rounding leaves it unchanged. -/
theorem roundPos_exact (n : Nat) (hn : n < 2 ^ 53) : (roundPos n 1).toRat = (n : ℚ) := by
  by_cases hn0 : n = 0
  · subst hn0
    simp [roundPos, Dbl.toRat]
  · obtain ⟨he1, -⟩ := exponentOf_spec n 1 (by omega) (by decide)
    have h2 : (2 : ℚ) ≠ 0 := by norm_num
    have hlt : (2 : ℚ) ^ exponentOf n 1 < (2 : ℚ) ^ (53 : Int) := by
      have hq : (n : ℚ) < (2 : ℚ) ^ (53 : Int) := by
        have h53 : (2 : ℚ) ^ (53 : Int) = (2 : ℚ) ^ (53 : Nat) := zpow_natCast 2 53
        rw [h53]
        exact_mod_cast hn
      simp only [Nat.cast_one, div_one] at he1
      exact lt_of_le_of_lt he1 hq
    have he : exponentOf n 1 < 53 := (zpow_lt_zpow_iff_right₀ (by norm_num)).mp hlt
    obtain ⟨k, hk⟩ : ∃ k : Nat, exponentOf n 1 - 52 = -(k : Int) :=
      ⟨(52 - exponentOf n 1).toNat, by omega⟩
    have hk0 : (-(k : Int)).toNat = 0 := by omega
    have hround : ∀ N : Nat, roundHalfEven N 1 = N := by
      intro N
      simp [roundHalfEven, Nat.mod_one]
    simp only [roundPos, hn0, if_false, hk, hk0, neg_neg, Int.toNat_natCast, pow_zero, mul_one,
      hround, Dbl.toRat, zpow_neg, zpow_natCast]
    push_cast
    field_simp

/-- Converting an integer of magnitude below `2 ^ 53` (every `int`) to `double` is exact. -/
theorem ofInt_exact (i : Int) (hi : i.natAbs < 2 ^ 53) : (Dbl.ofInt i).toRat = (i : ℚ) := by
  have h := roundPos_exact i.natAbs hi
  have hi_eq : (i : ℚ) = ((i.sign : Int) : ℚ) * ((i.natAbs : Nat) : ℚ) := by
    have h' : ((i.sign * (i.natAbs : Int) : Int) : ℚ) = (i : ℚ) := by
      rw [Int.sign_mul_natAbs]
    rw [Int.cast_mul, Int.cast_natCast] at h'
    exact h'.symm
  have hval : (Dbl.ofInt i).toRat = ((i.sign : Int) : ℚ) * (roundPos i.natAbs 1).toRat := by
    simp only [Dbl.ofInt, roundSigned, Dbl.toRat, add_zero]
    push_cast
    ring
  rw [hval, h, ← hi_eq]

/-! ## Conversion of a `double` to `int` -/

/-- The value of a `double` with a non-negative exponent is an integer. -/
theorem toRat_of_nonneg (x : Dbl) (he : 0 ≤ x.e) :
    x.toRat = ((x.m * 2 ^ x.e.toNat : Int) : ℚ) := by
  obtain ⟨k, hk⟩ := Int.eq_ofNat_of_zero_le he
  simp only [Dbl.toRat, hk, Int.toNat_natCast, zpow_natCast]
  push_cast
  rfl

/-- The value of a `double` with a negative exponent is a quotient by a power of two. -/
theorem toRat_of_neg (x : Dbl) (he : x.e < 0) :
    x.toRat = (x.m : ℚ) / ((2 ^ (-x.e).toNat : Nat) : ℚ) := by
  obtain ⟨k, hk⟩ : ∃ k : Nat, x.e = -(k : Int) := ⟨(-x.e).toNat, by omega⟩
  simp only [Dbl.toRat, hk, neg_neg, Int.toNat_natCast, zpow_neg, zpow_natCast]
  push_cast
  rfl

/-- The integer part drops the fraction toward zero: it is the floor of a non-negative value and
the ceiling of a non-positive one. -/
theorem truncValue_spec (x : Dbl) :
    (0 ≤ x.toRat → truncValue x = ⌊x.toRat⌋) ∧ (x.toRat ≤ 0 → truncValue x = ⌈x.toRat⌉) := by
  by_cases he : 0 ≤ x.e
  · rw [toRat_of_nonneg x he]
    simp only [truncValue, he, if_true, Int.floor_intCast, Int.ceil_intCast]
    exact ⟨fun _ => trivial, fun _ => trivial⟩
  · have he' : x.e < 0 := by omega
    have hpos : (0 : ℚ) < ((2 ^ (-x.e).toNat : Nat) : ℚ) := by positivity
    have hd : (0 : Int) ≤ ((2 ^ (-x.e).toNat : Nat) : Int) := Int.natCast_nonneg _
    have hcast : (2 : Int) ^ (-x.e).toNat = ((2 ^ (-x.e).toNat : Nat) : Int) := by simp
    rw [toRat_of_neg x he']
    simp only [truncValue, he, if_false, hcast]
    constructor
    · intro hv
      have hm : 0 ≤ x.m := by
        by_contra hneg
        have : (x.m : ℚ) < 0 := by exact_mod_cast (not_le.mp hneg)
        have := div_neg_of_neg_of_pos this hpos
        linarith
      rw [Rat.floor_intCast_div_natCast, Int.tdiv_eq_ediv hm hd]
    · intro hv
      have hm : x.m ≤ 0 := by
        by_contra hneg
        have : (0 : ℚ) < (x.m : ℚ) := by exact_mod_cast (not_le.mp hneg)
        have := div_pos this hpos
        linarith
      have hneg : 0 ≤ -x.m := by omega
      have h1 : x.m.tdiv ((2 ^ (-x.e).toNat : Nat) : Int) =
          -((-x.m) / ((2 ^ (-x.e).toNat : Nat) : Int)) := by
        rw [← Int.tdiv_eq_ediv hneg hd, Int.neg_tdiv, neg_neg]
      have h2 : (x.m : ℚ) / ((2 ^ (-x.e).toNat : Nat) : ℚ) =
          -(((-x.m : Int) : ℚ) / ((2 ^ (-x.e).toNat : Nat) : ℚ)) := by
        push_cast
        ring
      rw [h1, h2, Int.ceil_neg, Rat.floor_intCast_div_natCast]

/-! ## Claims -/

/-- C2: for every sample `s` in `0..255` and every non-empty palette (whose last index fits the
`int` that holds `char_index`), the index the mapper computes is `s * (len - 1) / 255`, lies in
`0 ≤ index < len`, and the palette lookup returns a glyph of the palette. -/
theorem charIndex_in_range (p : List UInt8) (s : Nat) (hs : s ≤ 255) (hp : p ≠ [])
    (hlen : p.length ≤ 2 ^ 31) :
    charIndex s p.length = ((s * (p.length - 1) / 255 : Nat) : Int) ∧
      0 ≤ charIndex s p.length ∧ charIndex s p.length < (p.length : Int) ∧
      ∃ c ∈ p, stringAt p (charIndex s p.length) = .ok c := by
  have hpos : 0 < p.length := List.length_pos.mpr hp
  have hq := quot_le_last s p.length hs
  have hlt : s * (p.length - 1) / 255 < p.length := by omega
  rw [charIndex_eq s p.length hs hpos hlen]
  refine ⟨rfl, Int.natCast_nonneg _, by exact_mod_cast hlt, p.get ⟨_, hlt⟩, List.get_mem _ _ _, ?_⟩
  exact stringAt_natCast p _ hlt hlen

/-- C2 at sample `200` and the detailed palette. -/
theorem charIndex_in_range_witness :
    charIndex 200 DETAILED_CHARS.length = ((200 * (DETAILED_CHARS.length - 1) / 255 : Nat) : Int) ∧
      0 ≤ charIndex 200 DETAILED_CHARS.length ∧
      charIndex 200 DETAILED_CHARS.length < (DETAILED_CHARS.length : Int) ∧
      ∃ c ∈ DETAILED_CHARS, stringAt DETAILED_CHARS (charIndex 200 DETAILED_CHARS.length) = .ok c :=
  charIndex_in_range DETAILED_CHARS 200 (by decide) (by decide) (by decide)

/-- C3: for every palette `P` of length `n ≥ 2` (at most `2 ^ 31`), the mapper returns `P[0]`
for sample `0` and `P[n - 1]` for sample `255`. -/
theorem mapPixel_endpoints (p : List UInt8) (h2 : 2 ≤ p.length) (hlen : p.length ≤ 2 ^ 31) :
    mapPixel p 0 = .ok (p.get ⟨0, by omega⟩) ∧
      mapPixel p 255 = .ok (p.get ⟨p.length - 1, by omega⟩) := by
  have hpos : 0 < p.length := by omega
  constructor
  · rw [mapPixel_eq p 0 hpos hlen]
    congr 2
    apply Fin.ext
    show 0 * (p.length - 1) / 255 = 0
    simp
  · rw [mapPixel_eq p 255 hpos hlen]
    congr 2
    apply Fin.ext
    show 255 * (p.length - 1) / 255 = p.length - 1
    exact Nat.mul_div_cancel_left _ (by decide)

/-- C3 at the simple palette. -/
theorem mapPixel_endpoints_witness :
    mapPixel SIMPLE_CHARS 0 = .ok (SIMPLE_CHARS.get ⟨0, by decide⟩) ∧
      mapPixel SIMPLE_CHARS 255 = .ok (SIMPLE_CHARS.get ⟨SIMPLE_CHARS.length - 1, by decide⟩) :=
  mapPixel_endpoints SIMPLE_CHARS (by decide) (by decide)

/-- C4: for a fixed non-empty palette (of at most `2 ^ 31` glyphs) the glyph index is
non-decreasing in the sample: `s₁ ≤ s₂ ≤ 255` gives `index s₁ ≤ index s₂`. -/
theorem charIndex_mono (len s₁ s₂ : Nat) (hpos : 0 < len) (hlen : len ≤ 2 ^ 31)
    (h12 : s₁ ≤ s₂) (h2 : s₂ ≤ 255) : charIndex s₁ len ≤ charIndex s₂ len := by
  rw [charIndex_eq s₁ len (le_trans h12 h2) hpos hlen, charIndex_eq s₂ len h2 hpos hlen]
  exact_mod_cast Nat.div_le_div_right (Nat.mul_le_mul_right _ h12)

/-- C4 at samples `100` and `101` and a palette of ten glyphs. -/
theorem charIndex_mono_witness : charIndex 100 10 ≤ charIndex 101 10 :=
  charIndex_mono 10 100 101 (by decide) (by decide) (by decide) (by decide)

/-- C5: for every row count and every worker count `k ≥ 1`, the ranges `[start_row, end_row)`
of workers `0..k-1` are well formed, start at row `0`, end at row `rows`, are contiguous,
ordered and non-overlapping, every row of `[0, rows)` lies in exactly one of them, and the rows
of all ranges listed in worker order are `0, 1, ..., rows - 1`. -/
theorem chunkBounds_partition (rows k : Nat) (hk : 1 ≤ k) :
    (∀ t, t < k → (chunkBounds rows k t).1 ≤ (chunkBounds rows k t).2) ∧
      (chunkBounds rows k 0).1 = 0 ∧ (chunkBounds rows k (k - 1)).2 = rows ∧
      (∀ t, t + 1 < k → (chunkBounds rows k t).2 = (chunkBounds rows k (t + 1)).1) ∧
      (∀ t₁ t₂, t₁ < t₂ → t₂ < k → (chunkBounds rows k t₁).2 ≤ (chunkBounds rows k t₂).1) ∧
      (∀ y, y < rows →
        ∃! t, t < k ∧ (chunkBounds rows k t).1 ≤ y ∧ y < (chunkBounds rows k t).2) ∧
      (List.range k).flatMap (fun t => List.range' (chunkBounds rows k t).1
        ((chunkBounds rows k t).2 - (chunkBounds rows k t).1)) = List.range rows := by
  refine ⟨?_, ?_, ?_, ?_, ?_, ?_, ?_⟩
  · intro t ht
    by_cases hlast : t = k - 1
    · subst hlast
      simp only [chunkBounds, if_true]
      exact last_start_le rows k
    · simp only [chunkBounds, hlast, if_false]
      exact Nat.mul_le_mul_right _ (Nat.le_succ t)
  · simp [chunkBounds]
  · simp [chunkBounds]
  · intro t ht
    have hne : t ≠ k - 1 := by omega
    simp only [chunkBounds, hne, if_false]
  · exact fun t₁ t₂ h12 h2 => chunk_end_le_start rows k t₁ t₂ h12 h2
  · intro y hy
    have hmem : y ∈ (List.range k).flatMap (chunkRows rows k) := by
      rw [chunkRows_flatMap rows k hk]
      exact List.mem_range.mpr hy
    obtain ⟨t, ht, hyt⟩ := List.mem_flatMap.mp hmem
    have htk := List.mem_range.mp ht
    simp only [chunkRows, List.mem_range'_1] at hyt
    refine ⟨t, ⟨htk, hyt.1, by omega⟩, ?_⟩
    rintro u ⟨huk, hu1, hu2⟩
    rcases Nat.lt_trichotomy u t with h | h | h
    · have := chunk_end_le_start rows k u t h htk
      omega
    · exact h
    · have := chunk_end_le_start rows k t u h huk
      omega
  · exact chunkRows_flatMap rows k hk

/-- C5 at ten rows and four workers. -/
theorem chunkBounds_partition_witness :
    (∀ t, t < 4 → (chunkBounds 10 4 t).1 ≤ (chunkBounds 10 4 t).2) ∧
      (chunkBounds 10 4 0).1 = 0 ∧ (chunkBounds 10 4 (4 - 1)).2 = 10 ∧
      (∀ t, t + 1 < 4 → (chunkBounds 10 4 t).2 = (chunkBounds 10 4 (t + 1)).1) ∧
      (∀ t₁ t₂, t₁ < t₂ → t₂ < 4 → (chunkBounds 10 4 t₁).2 ≤ (chunkBounds 10 4 t₂).1) ∧
      (∀ y, y < 10 →
        ∃! t, t < 4 ∧ (chunkBounds 10 4 t).1 ≤ y ∧ y < (chunkBounds 10 4 t).2) ∧
      (List.range 4).flatMap (fun t => List.range' (chunkBounds 10 4 t).1
        ((chunkBounds 10 4 t).2 - (chunkBounds 10 4 t).1)) = List.range 10 :=
  chunkBounds_partition 10 4 (by decide)

/-- C8: when `thread::hardware_concurrency()` reports `0`, `convertWithThreading` does not
fall back to one worker: `image.rows / num_threads` divides by zero, for every palette and
image. -/
theorem convertWithThreading_zero (p : List UInt8) (image : Mat) :
    convertWithThreading 0 p image = .error .divisionByZero := rfl

/-- C9: the constructor accepts charset value `3` and leaves the palette empty; the mapper then
computes index `16843009` for sample `1`, and rendering a one-pixel image of that sample reads
the empty string out of range. -/
theorem asciiCharsOf_three_empty :
    asciiCharsOf 3 = [] ∧ charIndex 1 (asciiCharsOf 3).length = 16843009 ∧
      convertSequential (asciiCharsOf 3) ⟨1, 1, fun _ _ => 1⟩ = .error .outOfRange := by
  decide

/-- C10: the block-shading palette is a string of 13 bytes, indexed per byte: sample `255`
yields the byte `0x88`, the last of the three bytes `E2 96 88` that encode the densest
character, and sample `128` yields the lone continuation byte `0x92`. -/
theorem blocks_indexed_per_byte :
    BLOCKS_CHARS.length = 13 ∧ bytesOf "█" = [0xE2, 0x96, 0x88] ∧
      mapPixel BLOCKS_CHARS 255 = .ok 0x88 ∧ mapPixel BLOCKS_CHARS 128 = .ok 0x92 ∧
      convertSequential BLOCKS_CHARS ⟨1, 2, fun _ _ => 255⟩ = .ok [0x88, 0x88, 10] := by
  decide

/-- C7 as stated fails: for `target_width = 7`, `rows = 1`, `cols = 4` the product is `0.875`,
which `convertImage` turns into `0`, while rounding to the nearest integer gives `1`. -/
theorem outputHeight_not_rounded :
    outputHeight true 7 1 4 = .ok 0 ∧ (heightValue 7 1 4).toRat = 7 / 8 ∧
      specOutputHeight 7 1 4 = 1 := by
  refine ⟨by decide, ?_, ?_⟩
  · have h : heightValue 7 1 4 = ⟨7881299347898368, -53⟩ := by decide
    rw [h]
    norm_num [Dbl.toRat]
  · unfold specOutputHeight
    rw [round_eq, Int.floor_eq_iff]
    norm_num

/-- C7 amended: with aspect preservation enabled, for every image with `rows > 0` and
`cols > 0` and every target width, `output_height` is the `double` value
`target_width * (rows / cols) * 0.5` with its fraction dropped (toward zero, not rounded to the
nearest integer) whenever that integer fits `int`, and the conversion is undefined otherwise;
for `target_width = 120`, `rows = 100`, `cols = 200` it is `30`. -/
theorem outputHeight_truncates (w : Int) (rows cols : Nat) (hr : 0 < rows) (hc : 0 < cols) :
    (∃ t : Int,
      (0 ≤ (heightValue w rows cols).toRat → t = ⌊(heightValue w rows cols).toRat⌋) ∧
      ((heightValue w rows cols).toRat ≤ 0 → t = ⌈(heightValue w rows cols).toRat⌉) ∧
      outputHeight true w rows cols =
        if -2 ^ 31 ≤ t ∧ t < 2 ^ 31 then .ok t else .error .intConversion) ∧
      outputHeight true 120 100 200 = .ok 30 := by
  refine ⟨⟨truncValue (heightValue w rows cols), (truncValue_spec _).1, (truncValue_spec _).2, ?_⟩,
    by decide⟩
  have hne : ¬(rows = 0 ∨ cols = 0) := by omega
  simp only [outputHeight, hne, if_false, if_true, truncToInt]

/-- C7 amended, at `target_width = 7`, `rows = 1`, `cols = 4`. -/
theorem outputHeight_truncates_witness :
    (∃ t : Int,
      (0 ≤ (heightValue 7 1 4).toRat → t = ⌊(heightValue 7 1 4).toRat⌋) ∧
      ((heightValue 7 1 4).toRat ≤ 0 → t = ⌈(heightValue 7 1 4).toRat⌉) ∧
      outputHeight true 7 1 4 =
        if -2 ^ 31 ≤ t ∧ t < 2 ^ 31 then .ok t else .error .intConversion) ∧
      outputHeight true 120 100 200 = .ok 30 :=
  outputHeight_truncates 7 1 4 (by decide) (by decide)

end ASCIIConverter
